import Mathlib

/-
Verification development for the synless structured editor: the forest arena
(forest/src/tree.rs, src/experiment/forest/forest.rs) and the pretty-print
layout engine (pretty/src/layout/layout.rs), shallowly embedded in Lean.
Definitions come first, theorems after.
-/

set_option maxHeartbeats 1000000

namespace Synless

/-! ### Bound algebra

Translated from pretty/src/layout/layout.rs, the `Lay` implementation for
`Bound` (lines 32-74).  Columns and heights are code-point / line counts,
modelled as `Nat`. -/

structure Bound where
  width : Nat
  indent : Nat
  height : Nat
deriving DecidableEq

namespace Bound

/-- Translation of `Bound::empty` (layout.rs lines 33-39). -/
def empty : Bound := { width := 0, indent := 0, height := 0 }

/-- Translation of `Bound::literal` (layout.rs lines 41-48): `width` and
`indent` are the code-point count of the string, `height` is 0. -/
def literal (s : String) : Bound :=
  { width := s.length, indent := s.length, height := 0 }

/-- Translation of `Bound::flush` (layout.rs lines 50-56). -/
def flush (b : Bound) : Bound :=
  { width := b.width, indent := 0, height := b.height + 1 }

/-- Translation of `Bound::concat` (layout.rs lines 58-65).  Note the source
computes `indent := self.indent + other.indent` unconditionally. -/
def concat (a b : Bound) : Bound :=
  { width := max a.width (a.indent + b.width)
    height := a.height + b.height
    indent := a.indent + b.indent }

end Bound

/-- The implicit invariant on bounds: the last line cannot end past the
maximum column used. -/
abbrev boundInv (b : Bound) : Prop := b.indent ≤ b.width

/-! ### The layout engine front end

The legacy `lay_out` function (pretty/src/layout/layout.rs lines 227-281)
recurses over a notation value against precomputed child bound sets. -/

/-- Styles are opaque to the layout claims (spec section 6); the record's
fields play no role here. -/
structure Style where
deriving DecidableEq

/-- Modelled from the spec: the file declaring the `Notation` enum is not
under src/.  Variants follow spec section 4.3 and the exhaustive match in
`lay_out` (layout.rs lines 228-281).  The five slots of the `Repeat` record
carried by the repeat variant are inlined as fields.  (The Rust name clashes
with a reserved Lean keyword, hence `Notn`.) -/
inductive Notn where
  | Empty : Notn
  | Literal (s : String) (style : Style) : Notn
  | Text (style : Style) : Notn
  | Child (i : Nat) : Notn
  | Flush (n : Notn) : Notn
  | Concat (a b : Notn) : Notn
  | NoWrap (n : Notn) : Notn
  | Choice (a b : Notn) : Notn
  | IfEmptyText (t f : Notn) : Notn
  | Rep (emptySlot lone first middle last : Notn) : Notn
  | Star : Notn
deriving DecidableEq

/-- Modelled from the spec (section 4.4): the dominance order on bounds,
`a ≤ b` iff `a.width ≤ b.width ∧ a.height ≤ b.height`; boundset.rs is not
under src/. -/
def dominates (a b : Bound) : Bool :=
  decide (a.width ≤ b.width) && decide (a.height ≤ b.height)

/-- Modelled from the spec (sections 3 and 4.4): boundset.rs is not under
src/.  A `BoundSet T` holds `(Bound, T)` pairs pruned to the Pareto
frontier of the dominance order. -/
structure BoundSet (T : Type) where
  entries : List (Bound × T)
deriving DecidableEq

namespace BoundSet

variable {T : Type}

/-- Modelled from the spec: the empty bound set. -/
def new : BoundSet T := ⟨[]⟩

/-- Modelled from the spec: a one-element bound set. -/
def singleton (b : Bound) (t : T) : BoundSet T := ⟨[(b, t)]⟩

/-- Modelled from the spec (section 4.4): insertion discards an incoming
element dominated by an existing one, removes existing elements dominated
by the incoming one, and otherwise adds it. -/
def insert (s : BoundSet T) (b : Bound) (t : T) : BoundSet T :=
  if s.entries.any (fun e => dominates e.1 b) then s
  else ⟨s.entries.filter (fun e => !dominates b e.1) ++ [(b, t)]⟩

/-- Modelled from the spec: building a bound set by Pareto insertion of the
listed entries in order (the `collect` of the source's iterators). -/
def fromList (l : List (Bound × T)) : BoundSet T :=
  l.foldl (fun s e => s.insert e.1 e.2) new

end BoundSet

/-- The `Lay` trait (layout.rs lines 12-19) as a record of operations. -/
structure Lay (L : Type) where
  emptyL : L
  literalL : String → Style → L
  flushL : L → L
  concatL : L → L → L
  textL : Bound → Style → L
  childL : Nat → Bound → L

/-- The `Lay` implementation for `Bound` (layout.rs lines 32-74). -/
def layBound : Lay Bound :=
  { emptyL := Bound.empty
    literalL := fun s _ => Bound.literal s
    flushL := Bound.flush
    concatL := Bound.concat
    textL := fun b _ => b
    childL := fun _ b => b }

/-- The ways `lay_out` can abort: the three explicit unreachable-variant
aborts (layout.rs lines 278-280) and out-of-bounds indexing into
`child_bounds` (lines 238 and 243). -/
inductive LayErr where
  | ifEmptyText : LayErr
  | rep : LayErr
  | star : LayErr
  | childIndex : LayErr
deriving DecidableEq

/-- Translation of the legacy `lay_out` (layout.rs lines 227-281), generic
over the `Lay` companion; aborts are reified as `Except.error`. -/
def layOut {L : Type} (l : Lay L) (cbs : List (BoundSet Unit)) :
    Notn → Except LayErr (BoundSet L)
  | .Empty => .ok (BoundSet.singleton Bound.empty l.emptyL)
  | .Literal s style => .ok (BoundSet.singleton (Bound.literal s) (l.literalL s style))
  | .Text style =>
    match cbs[0]? with
    | none => .error .childIndex
    | some cb => .ok (BoundSet.fromList (cb.entries.map (fun e => (e.1, l.textL e.1 style))))
  | .Child i =>
    match cbs[i]? with
    | none => .error .childIndex
    | some cb => .ok (BoundSet.fromList (cb.entries.map (fun e => (e.1, l.childL i e.1))))
  | .Flush n =>
    match layOut l cbs n with
    | .error err => .error err
    | .ok s => .ok (BoundSet.fromList (s.entries.map (fun e => (e.1.flush, l.flushL e.2))))
  | .Concat n1 n2 =>
    match layOut l cbs n1 with
    | .error err => .error err
    | .ok s1 =>
      match layOut l cbs n2 with
      | .error err => .error err
      | .ok s2 =>
        .ok (s1.entries.foldl (fun acc e1 =>
          s2.entries.foldl (fun acc e2 =>
            acc.insert (e1.1.concat e2.1) (l.concatL e1.2 e2.2)) acc) BoundSet.new)
  | .NoWrap n =>
    match layOut l cbs n with
    | .error err => .error err
    | .ok s => .ok (BoundSet.fromList (s.entries.filter (fun e => e.1.height == 0)))
  | .Choice n1 n2 =>
    match layOut l cbs n1 with
    | .error err => .error err
    | .ok s1 =>
      match layOut l cbs n2 with
      | .error err => .error err
      | .ok s2 => .ok (BoundSet.fromList (s1.entries ++ s2.entries))
  | .IfEmptyText _ _ => .error .ifEmptyText
  | .Rep _ _ _ _ _ => .error .rep
  | .Star => .error .star

/-- A notation is expanded when no subterm is an `IfEmptyText`, repeat, or
`Star` variant (the forms resolved by the expansion step, spec section
4.3). -/
def expanded : Notn → Bool
  | .Empty => true
  | .Literal _ _ => true
  | .Text _ => true
  | .Child _ => true
  | .Flush n => expanded n
  | .Concat a b => expanded a && expanded b
  | .NoWrap n => expanded n
  | .Choice a b => expanded a && expanded b
  | .IfEmptyText _ _ => false
  | .Rep _ _ _ _ _ => false
  | .Star => false

/-! ### Forest arena

Translated from src/experiment/forest/forest.rs (the arena) and
forest/src/tree.rs (the handle layer).  Node identifiers (`Uuid::new_v4`,
guaranteed fresh and never reused) are modelled as naturals drawn from a
counter.  The `HashMap` is modelled as an association list; aborts
(`ContractViolation` panics) are reified as `none` / `false` results, and
the splice operations thread the store so that an abort returns the store
exactly as it was at the abort point. -/

/-- Node identifiers (`type Id = Uuid`, forest.rs line 11). -/
abbrev Id := Nat

/-- Translation of `NodeContents` (forest.rs lines 25-28). -/
inductive NodeContents (D L : Type) where
  | Leaf (leaf : L) : NodeContents D L
  | Branch (data : D) (children : List Id) : NodeContents D L
deriving DecidableEq

/-- Translation of `Node` (forest.rs lines 20-23). -/
structure Node (D L : Type) where
  parent : Option Id
  contents : NodeContents D L
deriving DecidableEq

/-- Children carried by a node: the list for a branch, nothing for a leaf. -/
def Node.childIds {D L : Type} (n : Node D L) : List Id :=
  match n.contents with
  | .Leaf _ => []
  | .Branch _ children => children

/-- Translation of the arena `Forest`/`RawForest` (forest.rs lines 16-18):
the id-to-node map, plus the fresh-id counter modelling `Uuid::new_v4`. -/
structure RawForest (D L : Type) where
  map : List (Id × Node D L)
  next : Id
deriving DecidableEq

/-- Association-list lookup (the `HashMap::get` of the source). -/
def lookupNode {D L : Type} : List (Id × Node D L) → Id → Option (Node D L)
  | [], _ => none
  | e :: es, i => if e.1 = i then some e.2 else lookupNode es i

/-- Association-list update of an existing key (the `HashMap::get_mut` write
of the source); absent keys are left untouched. -/
def setEntry {D L : Type} (m : List (Id × Node D L)) (i : Id) (n : Node D L) :
    List (Id × Node D L) :=
  m.map (fun e => if e.1 = i then (i, n) else e)

namespace RawForest

variable {D L : Type}

/-- The `Forest::get` lookup (forest.rs lines 181-186), with the not-found
abort reified as `none`. -/
def get? (f : RawForest D L) (id : Id) : Option (Node D L) := lookupNode f.map id

/-- Writing one node of the map in place. -/
def setNode (f : RawForest D L) (id : Id) (n : Node D L) : RawForest D L :=
  { f with map := setEntry f.map id n }

/-- The `HashMap::remove` of `Forest::remove` (forest.rs lines 195-200). -/
def eraseNode (f : RawForest D L) (id : Id) : RawForest D L :=
  { f with map := f.map.filter (fun e => e.1 != id) }

/-- Setting the parent field of a live node; `none` when the id is dead (the
`get_mut` abort). -/
def setParent? (f : RawForest D L) (id : Id) (p : Option Id) : Option (RawForest D L) :=
  match f.get? id with
  | none => none
  | some n => some (f.setNode id { n with parent := p })

/-- Translation of `Forest::create_leaf` (forest.rs lines 129-137): a fresh
parentless leaf. -/
def createLeaf (f : RawForest D L) (leaf : L) : RawForest D L × Id :=
  ({ map := (f.next, ⟨none, .Leaf leaf⟩) :: f.map, next := f.next + 1 }, f.next)

/-- Translation of `Forest::create_branch` (forest.rs lines 119-127): a
fresh parentless branch over the listed children.  The setting of each
child's parent field to the new id is Modelled from the spec (section 4.1):
the code performing it is not under src/.  The children are live by the
create_branch precondition; a dead child would abort, and no claim depends
on that path, so it is skipped here. -/
def createBranch (f : RawForest D L) (data : D) (children : List Id) : RawForest D L × Id :=
  let id := f.next
  let f1 : RawForest D L :=
    { map := (id, ⟨none, .Branch data children⟩) :: f.map, next := f.next + 1 }
  (children.foldl (fun acc c =>
      match acc.setParent? c (some id) with
      | none => acc
      | some acc' => acc') f1, id)

/-- Translation of `Forest::replace_child` (forest.rs lines 139-148); the
parent-field side effects (`new_child.parent := parent`,
`old_child.parent := None`, in that order, after the swap) are Modelled from
the spec (section 4.1): the code performing them is not under src/. -/
def replaceChild (f : RawForest D L) (parent : Id) (i : Nat) (newChild : Id) :
    RawForest D L × Option Id :=
  match f.get? parent with
  | none => (f, none)
  | some node =>
    match node.contents with
    | .Leaf _ => (f, none)
    | .Branch data children =>
      match children[i]? with
      | none => (f, none)
      | some oldChild =>
        let f1 := f.setNode parent ⟨node.parent, .Branch data (children.set i newChild)⟩
        match f1.setParent? newChild (some parent) with
        | none => (f1, none)
        | some f2 =>
          match f2.setParent? oldChild none with
          | none => (f2, none)
          | some f3 => (f3, some oldChild)

/-- Translation of `Forest::insert_child` (forest.rs lines 150-156); the
parent-field side effect (`new_child.parent := parent`, after the list
insertion) is Modelled from the spec (section 4.1): the code performing it
is not under src/. -/
def insertChild (f : RawForest D L) (parent : Id) (i : Nat) (newChild : Id) :
    RawForest D L × Bool :=
  match f.get? parent with
  | none => (f, false)
  | some node =>
    match node.contents with
    | .Leaf _ => (f, false)
    | .Branch data children =>
      if i > children.length then (f, false)
      else
        let f1 := f.setNode parent ⟨node.parent, .Branch data (children.insertIdx i newChild)⟩
        match f1.setParent? newChild (some parent) with
        | none => (f1, false)
        | some f2 => (f2, true)

/-- Translation of `Forest::remove_child` (forest.rs lines 158-164); the
parent-field side effect (removed node's parent set to `None`, after the
list removal) is Modelled from the spec (section 4.1): the code performing
it is not under src/. -/
def removeChild (f : RawForest D L) (parent : Id) (i : Nat) :
    RawForest D L × Option Id :=
  match f.get? parent with
  | none => (f, none)
  | some node =>
    match node.contents with
    | .Leaf _ => (f, none)
    | .Branch data children =>
      match children[i]? with
      | none => (f, none)
      | some removed =>
        let f1 := f.setNode parent ⟨node.parent, .Branch data (children.eraseIdx i)⟩
        match f1.setParent? removed none with
        | none => (f1, none)
        | some f2 => (f2, some removed)

/-- Translation of the `Forest::root` loop (forest.rs lines 60-69), made
total with a fuel bound on the number of parent steps; `none` means a dead
id on the walk or fuel exhaustion (possible only on a cyclic store). -/
def rootUpTo (f : RawForest D L) : Nat → Id → Option Id
  | 0, _ => none
  | fuel + 1, id =>
    match f.get? id with
    | none => none
    | some n =>
      match n.parent with
      | none => some id
      | some p => f.rootUpTo fuel p

/-- The `Forest::root` walk with enough fuel for any acyclic store: a
parent chain without repetition visits at most every node once. -/
def rootOf (f : RawForest D L) (id : Id) : Option Id :=
  f.rootUpTo (f.map.length + 1) id

/-- Modelled from the spec: `RawForest::is_valid` (used by
`Tree::goto_bookmark`, tree.rs line 199) is not under src/; per spec
section 3 a bookmark id is valid when it still exists in the arena. -/
def isValid (f : RawForest D L) (id : Id) : Bool := (f.get? id).isSome

/-- Translation of `Forest::delete_tree` (forest.rs lines 166-177): remove
the node, then recursively delete each child; made total with a fuel bound
on the recursion depth.  `none` reifies the dead-id abort (or fuel
exhaustion, possible only on a cyclic or dangling store). -/
def deleteTree : Nat → RawForest D L → Id → Option (RawForest D L)
  | 0, _, _ => none
  | fuel + 1, f, id =>
    match f.get? id with
    | none => none
    | some node =>
      let f1 := f.eraseNode id
      match node.contents with
      | .Leaf _ => some f1
      | .Branch _ children =>
        children.foldlM (fun acc c => deleteTree fuel acc c) f1

/-- Translation of `Forest::child` (forest.rs lines 53-58), with the leaf
and out-of-bounds aborts reified as `none`. -/
def child? (f : RawForest D L) (id : Id) (i : Nat) : Option Id :=
  match f.get? id with
  | some ⟨_, .Branch _ children⟩ => children[i]?
  | _ => none

/-- The ids reachable from `id` through children links (the subtree owned
by a handle rooted there), with a fuel bound on the depth. -/
def descendants : Nat → RawForest D L → Id → List Id
  | 0, _, _ => []
  | fuel + 1, f, id =>
    match f.get? id with
    | none => []
    | some n =>
      match n.contents with
      | .Leaf _ => [id]
      | .Branch _ children => id :: children.flatMap (descendants fuel f)

end RawForest

/-- Translation of `Bookmark` (tree.rs lines 48-51): a bare identifier. -/
structure Bookmark where
  id : Id
deriving DecidableEq

/-- Translation of the `Tree` handle (tree.rs lines 42-46): the owned
subtree's top (`root`) and the currently pointed node (the source field
`id`, called `focus` here); the arena reference is passed explicitly. -/
structure Tree where
  root : Id
  focus : Id
deriving DecidableEq

namespace Tree

/-- Translation of `Tree::new` (tree.rs lines 243-249): both `root` and the
focus are set to the given id. -/
def new (id : Id) : Tree := { root := id, focus := id }

end Tree

/-- Translation of `Forest::new_leaf` (tree.rs lines 62-65). -/
def newLeaf {D L : Type} (f : RawForest D L) (leaf : L) : RawForest D L × Tree :=
  let r := f.createLeaf leaf
  (r.1, Tree.new r.2)

/-- Translation of `Forest::new_branch` (tree.rs lines 68-76): each consumed
child handle contributes its `id` field — the focus, not the root. -/
def newBranch {D L : Type} (f : RawForest D L) (data : D) (children : List Tree) :
    RawForest D L × Tree :=
  let r := f.createBranch data (children.map (fun t => t.focus))
  (r.1, Tree.new r.2)

namespace Tree

variable {D L : Type}

/-- Translation of `Tree::replace_child` (tree.rs lines 158-162): splice at
the focus, consuming `other`; the returned handle is `Tree::new` of the old
child. -/
def replaceChild (f : RawForest D L) (t : Tree) (i : Nat) (other : Tree) :
    RawForest D L × Option Tree :=
  match f.replaceChild t.focus i other.focus with
  | (f', none) => (f', none)
  | (f', some oldId) => (f', some (Tree.new oldId))

/-- Translation of `Tree::insert_child` (tree.rs lines 169-173). -/
def insertChild (f : RawForest D L) (t : Tree) (i : Nat) (other : Tree) :
    RawForest D L × Bool :=
  f.insertChild t.focus i other.focus

/-- Translation of `Tree::remove_child` (tree.rs lines 180-183): the
returned handle is `Tree::new` of the removed child. -/
def removeChild (f : RawForest D L) (t : Tree) (i : Nat) :
    RawForest D L × Option Tree :=
  match f.removeChild t.focus i with
  | (f', none) => (f', none)
  | (f', some removed) => (f', some (Tree.new removed))

/-- Translation of `Tree::goto_child` (tree.rs lines 236-239). -/
def gotoChild (f : RawForest D L) (t : Tree) (i : Nat) : Option Tree :=
  (f.child? t.focus i).map (fun id => { t with focus := id })

/-- Translation of `Tree::goto_bookmark` (tree.rs lines 198-205): move the
focus to the bookmark when its id is valid and its root walk lands on this
handle's `root`; otherwise leave the handle unchanged. -/
def gotoBookmark (f : RawForest D L) (t : Tree) (mark : Bookmark) : Bool × Tree :=
  if f.isValid mark.id && (f.rootOf mark.id == some t.root) then
    (true, { t with focus := mark.id })
  else
    (false, t)

/-- Translation of the `Drop` impl for `Tree` (tree.rs lines 260-267): it
calls `delete_tree(self.id)` — the focus — not `delete_tree(self.root)`. -/
def drop (f : RawForest D L) (t : Tree) : Option (RawForest D L) :=
  RawForest.deleteTree (f.map.length + 1) f t.focus

end Tree

/-- Reachability along parent links: `PReaches f a b` when walking parent
fields from `a` passes through `b`. -/
inductive PReaches {D L : Type} (f : RawForest D L) : Id → Id → Prop where
  | refl (a : Id) : PReaches f a a
  | step {a b c : Id} (n : Node D L) (h1 : f.get? a = some n)
      (h2 : n.parent = some b) (h3 : PReaches f b c) : PReaches f a c

/-! ### Concrete stores for the counterexamples and witnesses -/

/-- A two-node store built through the handle layer: leaf 0 under branch 1
(the branch is the root of the only handle). -/
def dropExample : RawForest Unit Unit × Tree :=
  let s0 : RawForest Unit Unit := { map := [], next := 0 }
  let s1 := newLeaf s0 ()
  newBranch s1.1 () [s1.2]

/-- A one-node store (a single parentless leaf, id 0) for the bookmark
witness. -/
def leafStore : RawForest Unit Unit :=
  { map := [(0, ⟨none, .Leaf ()⟩)], next := 1 }

/-- A three-node store for the splice witnesses: branch 2 with the single
child 0 (a leaf whose parent field is 2), and a parentless leaf 1. -/
def spliceStore : RawForest Unit Unit :=
  { map := [(2, ⟨none, .Branch () [0]⟩), (1, ⟨none, .Leaf ()⟩), (0, ⟨some 2, .Leaf ()⟩)]
    next := 3 }

/-! ### Theorems -/

/-- Association-list lookup success names a pair of the list. -/
theorem lookupNode_mem {D L : Type} {m : List (Id × Node D L)} {i : Id} {n : Node D L} :
    lookupNode m i = some n → (i, n) ∈ m := by
  induction m with
  | nil => intro h; simp [lookupNode] at h
  | cons e es ih =>
    intro h
    rw [lookupNode] at h
    by_cases he : e.1 = i
    · rw [if_pos he] at h
      injection h with h2
      obtain ⟨a, b⟩ := e
      subst he
      subst h2
      exact List.mem_cons_self _ _
    · rw [if_neg he] at h
      exact List.mem_cons_of_mem _ (ih h)

/-- Lookup after an in-place update. -/
theorem lookupNode_setEntry {D L : Type} (m : List (Id × Node D L)) (i j : Id)
    (n : Node D L) :
    lookupNode (setEntry m i n) j =
      if j = i then (if (lookupNode m i).isSome then some n else none)
      else lookupNode m j := by
  induction m with
  | nil => simp [setEntry, lookupNode]
  | cons e es ih =>
    simp only [setEntry] at ih
    simp only [setEntry, List.map_cons]
    by_cases hei : e.1 = i
    · by_cases hji : j = i
      · simp [lookupNode, hei, hji]
      · have hij : ¬ i = j := fun h => hji h.symm
        simp [lookupNode, hei, hji, hij, ih]
    · by_cases hji : j = i
      · subst hji
        simp only [lookupNode, if_neg hei]
        rw [ih]
        simp
      · simp [lookupNode, hei, hji, ih]

/-- Lookup after `setNode`. -/
theorem get?_setNode {D L : Type} (f : RawForest D L) (i j : Id) (n : Node D L) :
    (f.setNode i n).get? j =
      if j = i then (if (f.get? i).isSome then some n else none) else f.get? j :=
  lookupNode_setEntry f.map i j n

/-- Lookup at the updated key when it is live. -/
theorem get?_setNode_self {D L : Type} (f : RawForest D L) {i : Id} (n : Node D L)
    (h : (f.get? i).isSome = true) : (f.setNode i n).get? i = some n := by
  rw [get?_setNode, if_pos rfl, h, if_pos rfl]

/-- Lookup at any other key is unchanged by `setNode`. -/
theorem get?_setNode_ne {D L : Type} (f : RawForest D L) {i j : Id} (n : Node D L)
    (h : j ≠ i) : (f.setNode i n).get? j = f.get? j := by
  rw [get?_setNode, if_neg h]

/-- `setNode` never changes which keys are live. -/
theorem get?_setNode_isSome {D L : Type} (f : RawForest D L) (i j : Id) (n : Node D L) :
    ((f.setNode i n).get? j).isSome = (f.get? j).isSome := by
  rw [get?_setNode]
  by_cases hji : j = i
  · rw [if_pos hji, hji]
    cases h2 : (f.get? i).isSome <;> simp [h2]
  · rw [if_neg hji]

/-- A successful root walk follows parent links and ends on a parentless
live node. -/
theorem rootUpTo_sound {D L : Type} {f : RawForest D L} :
    ∀ {fuel : Nat} {id r : Id}, f.rootUpTo fuel id = some r →
      PReaches f id r ∧ ∃ n, f.get? r = some n ∧ n.parent = none := by
  intro fuel
  induction fuel with
  | zero => intro id r h; simp [RawForest.rootUpTo] at h
  | succ fuel ih =>
    intro id r h
    rw [RawForest.rootUpTo] at h
    split at h
    · exact Option.noConfusion h
    · next n hg =>
      split at h
      · next hpn =>
        injection h with h'
        subst h'
        exact ⟨.refl id, n, hg, hpn⟩
      · next p hpn =>
        obtain ⟨hr, hend⟩ := ih h
        exact ⟨.step n hg hpn hr, hend⟩

/-- The root walk is the unique parentless node reached by parent links:
parent steps are deterministic, so any parent walk landing on a parentless
node lands on the walk's result. -/
theorem rootUpTo_unique {D L : Type} {f : RawForest D L} :
    ∀ {fuel : Nat} {id r r' : Id}, f.rootUpTo fuel id = some r' →
      PReaches f id r → (∃ n, f.get? r = some n ∧ n.parent = none) → r' = r := by
  intro fuel
  induction fuel with
  | zero => intro id r r' h; simp [RawForest.rootUpTo] at h
  | succ fuel ih =>
    intro id r r' h hre hend
    rw [RawForest.rootUpTo] at h
    split at h
    · exact Option.noConfusion h
    · next n hg =>
      split at h
      · next hpn =>
        injection h with h'
        subst h'
        cases hre with
        | refl => rfl
        | step n2 h1 h2 h3 =>
          rw [hg] at h1
          injection h1 with h1'
          subst h1'
          rw [hpn] at h2
          exact Option.noConfusion h2
      · next p hpn =>
        cases hre with
        | refl =>
          obtain ⟨n2, hg2, hp2⟩ := hend
          rw [hg] at hg2
          injection hg2 with h2'
          subst h2'
          rw [hpn] at hp2
          exact Option.noConfusion hp2
        | step n2 h1 h2 h3 =>
          rw [hg] at h1
          injection h1 with h1'
          subst h1'
          rw [hpn] at h2
          injection h2 with h2'
          subst h2'
          exact ih h h3 hend

/-- The fully reduced success path of `replaceChild`: once the parent is a
live branch, the index is in bounds, and the two parent-field writes land on
live nodes, the result is the three-write store. -/
theorem replaceChild_eq {D L : Type} {f : RawForest D L} {parent : Id} {i : Nat}
    {newChild : Id} {np : Option Id} {d : D} {children : List Id} {oldChild : Id}
    (hp : f.get? parent = some ⟨np, .Branch d children⟩)
    (hold : children[i]? = some oldChild)
    {n1 : Node D L}
    (h1 : (f.setNode parent ⟨np, .Branch d (children.set i newChild)⟩).get? newChild
        = some n1)
    {n2 : Node D L}
    (h2 : ((f.setNode parent ⟨np, .Branch d (children.set i newChild)⟩).setNode newChild
        ⟨some parent, n1.contents⟩).get? oldChild = some n2) :
    f.replaceChild parent i newChild =
      (((f.setNode parent ⟨np, .Branch d (children.set i newChild)⟩).setNode newChild
          ⟨some parent, n1.contents⟩).setNode oldChild ⟨none, n2.contents⟩,
        some oldChild) := by
  simp only [RawForest.replaceChild, hp, hold, RawForest.setParent?, h1, h2]

/-- The fully reduced success path of `insertChild`. -/
theorem insertChild_eq {D L : Type} {f : RawForest D L} {parent : Id} {i : Nat}
    {newChild : Id} {np : Option Id} {d : D} {children : List Id}
    (hp : f.get? parent = some ⟨np, .Branch d children⟩) (hle : i ≤ children.length)
    {n1 : Node D L}
    (h1 : (f.setNode parent ⟨np, .Branch d (children.insertIdx i newChild)⟩).get? newChild
        = some n1) :
    f.insertChild parent i newChild =
      ((f.setNode parent ⟨np, .Branch d (children.insertIdx i newChild)⟩).setNode newChild
        ⟨some parent, n1.contents⟩, true) := by
  simp only [RawForest.insertChild, hp]
  rw [if_neg (by omega : ¬ i > children.length)]
  simp only [RawForest.setParent?, h1]

/-- The fully reduced success path of `removeChild`. -/
theorem removeChild_eq {D L : Type} {f : RawForest D L} {parent : Id} {i : Nat}
    {np : Option Id} {d : D} {children : List Id} {removed : Id}
    (hp : f.get? parent = some ⟨np, .Branch d children⟩)
    (hold : children[i]? = some removed)
    {n1 : Node D L}
    (h1 : (f.setNode parent ⟨np, .Branch d (children.eraseIdx i)⟩).get? removed
        = some n1) :
    f.removeChild parent i =
      ((f.setNode parent ⟨np, .Branch d (children.eraseIdx i)⟩).setNode removed
        ⟨none, n1.contents⟩, some removed) := by
  simp only [RawForest.removeChild, hp, hold, RawForest.setParent?, h1]

/-- C3 counterexample: with `a = (width 1, indent 1, height 0)` (the bound of
`literal "x"`) and `b = (width 1, indent 0, height 1)` (its flush), `b` has
positive height yet `a.concat(b)` has indent `1 = a.indent + b.indent`, not
`b.indent = 0` as the claim requires. -/
theorem concat_indent_counterexample :
    (0 : Nat) < (Bound.mk 1 0 1).height ∧
    (Bound.concat (Bound.mk 1 1 0) (Bound.mk 1 0 1)).indent ≠
      (Bound.mk 1 0 1).indent := by
  decide

/-- C3 (amended): for all bounds `a` and `b`, `a.concat(b)` has width
`max(a.width, a.indent + b.width)`, height `a.height + b.height`, and indent
`a.indent + b.indent` unconditionally, regardless of `b.height`. -/
theorem concat_spec (a b : Bound) :
    (a.concat b).width = max a.width (a.indent + b.width) ∧
    (a.concat b).height = a.height + b.height ∧
    (a.concat b).indent = a.indent + b.indent :=
  ⟨rfl, rfl, rfl⟩

/-- C6 counterexample: the empty bound is not a right identity for every
bound: for `a = (width 0, indent 1, height 0)` we get
`a.concat(empty) = (width 1, indent 1, height 0) ≠ a`. -/
theorem concat_right_id_counterexample :
    Bound.concat (Bound.mk 0 1 0) Bound.empty ≠ Bound.mk 0 1 0 := by
  decide

/-- C6 (amended): `Bound.concat` is associative and `empty` is a left
identity, for every bound; `empty` is a right identity for every bound
satisfying `indent ≤ width`. -/
theorem concat_assoc_id :
    (∀ a b c : Bound, (a.concat b).concat c = a.concat (b.concat c)) ∧
    (∀ b : Bound, Bound.empty.concat b = b) ∧
    (∀ a : Bound, boundInv a → a.concat Bound.empty = a) := by
  refine ⟨?_, ?_, ?_⟩
  · rintro ⟨aw, ai, ah⟩ ⟨bw, bi, bh⟩ ⟨cw, ci, ch⟩
    simp only [Bound.concat, Bound.mk.injEq]
    refine ⟨?_, by omega, by omega⟩
    omega
  · rintro ⟨bw, bi, bh⟩
    simp only [Bound.concat, Bound.empty, Bound.mk.injEq]
    omega
  · rintro ⟨aw, ai, ah⟩ h
    simp only [boundInv] at h
    simp only [Bound.concat, Bound.empty, Bound.mk.injEq]
    omega

/-- Witness for `concat_assoc_id`: the right-identity part applied to the
concrete bound `(width 2, indent 1, height 0)`. -/
theorem concat_assoc_id_witness :
    Bound.concat (Bound.mk 2 1 0) Bound.empty = Bound.mk 2 1 0 :=
  concat_assoc_id.2.2 (Bound.mk 2 1 0) (by decide)

/-- C8: `indent ≤ width` holds for `empty` and every `literal`, and is
preserved by `flush` (unconditionally) and by `concat` (when both arguments
satisfy it). -/
theorem boundInv_preserved :
    boundInv Bound.empty ∧
    (∀ s : String, boundInv (Bound.literal s)) ∧
    (∀ a : Bound, boundInv a.flush) ∧
    (∀ a b : Bound, boundInv a → boundInv b → boundInv (a.concat b)) := by
  refine ⟨Nat.le_refl 0, fun s => Nat.le_refl _, fun a => Nat.zero_le _, ?_⟩
  rintro ⟨aw, ai, ah⟩ ⟨bw, bi, bh⟩ ha hb
  simp only [boundInv, Bound.concat] at *
  omega

/-- Witness for `boundInv_preserved`: the concat part applied to the bounds
of `literal "ab"` and `literal "c"`. -/
theorem boundInv_preserved_witness :
    boundInv (Bound.concat (Bound.mk 2 2 0) (Bound.mk 1 1 0)) :=
  boundInv_preserved.2.2.2 (Bound.mk 2 2 0) (Bound.mk 1 1 0)
    (by decide) (by decide)

/-- C7: `lay_out` aborts on every `IfEmptyText`, repeat, or `Star` notation;
and on an expanded notation (no such subterm) those abort branches are
unreachable — the only possible abort is out-of-bounds child indexing. -/
theorem layOut_unreachable_branches {L : Type} (l : Lay L) (cbs : List (BoundSet Unit)) :
    (∀ t f, layOut l cbs (.IfEmptyText t f) = .error .ifEmptyText) ∧
    (∀ e₁ e₂ e₃ e₄ e₅, layOut l cbs (.Rep e₁ e₂ e₃ e₄ e₅) = .error .rep) ∧
    (layOut l cbs .Star = .error .star) ∧
    (∀ n : Notn, expanded n = true →
      ∀ err, layOut l cbs n = .error err → err = .childIndex) := by
  refine ⟨fun t f => rfl, fun e₁ e₂ e₃ e₄ e₅ => rfl, rfl, ?_⟩
  intro n
  induction n with
  | Empty => intro _ err h; simp [layOut] at h
  | Literal s style => intro _ err h; simp [layOut] at h
  | Text style =>
    intro _ err h
    simp only [layOut] at h
    cases hc : cbs[0]? with
    | none => rw [hc] at h; exact (Except.error.injEq _ _).mp h |>.symm ▸ rfl
    | some cb => rw [hc] at h; exact absurd h (by simp)
  | Child i =>
    intro _ err h
    simp only [layOut] at h
    cases hc : cbs[i]? with
    | none => rw [hc] at h; exact (Except.error.injEq _ _).mp h |>.symm ▸ rfl
    | some cb => rw [hc] at h; exact absurd h (by simp)
  | Flush n ih =>
    intro hn err h
    simp only [expanded] at hn
    simp only [layOut] at h
    cases hs : layOut l cbs n with
    | error e => rw [hs] at h; cases h; exact ih hn _ hs
    | ok s => rw [hs] at h; exact absurd h (by simp)
  | Concat n1 n2 ih1 ih2 =>
    intro hn err h
    simp only [expanded, Bool.and_eq_true] at hn
    simp only [layOut] at h
    cases hs1 : layOut l cbs n1 with
    | error e => rw [hs1] at h; cases h; exact ih1 hn.1 _ hs1
    | ok s1 =>
      rw [hs1] at h
      cases hs2 : layOut l cbs n2 with
      | error e => rw [hs2] at h; cases h; exact ih2 hn.2 _ hs2
      | ok s2 => rw [hs2] at h; exact absurd h (by simp)
  | NoWrap n ih =>
    intro hn err h
    simp only [expanded] at hn
    simp only [layOut] at h
    cases hs : layOut l cbs n with
    | error e => rw [hs] at h; cases h; exact ih hn _ hs
    | ok s => rw [hs] at h; exact absurd h (by simp)
  | Choice n1 n2 ih1 ih2 =>
    intro hn err h
    simp only [expanded, Bool.and_eq_true] at hn
    simp only [layOut] at h
    cases hs1 : layOut l cbs n1 with
    | error e => rw [hs1] at h; cases h; exact ih1 hn.1 _ hs1
    | ok s1 =>
      rw [hs1] at h
      cases hs2 : layOut l cbs n2 with
      | error e => rw [hs2] at h; cases h; exact ih2 hn.2 _ hs2
      | ok s2 => rw [hs2] at h; exact absurd h (by simp)
  | IfEmptyText t f iht ihf => intro hn; simp [expanded] at hn
  | Rep e₁ e₂ e₃ e₄ e₅ ih₁ ih₂ ih₃ ih₄ ih₅ => intro hn; simp [expanded] at hn
  | Star => intro hn; simp [expanded] at hn

/-- Witness for `layOut_unreachable_branches`: the unreachability part
applied to the expanded notation `Child 0` with no child bound sets, whose
only abort is the out-of-bounds index. -/
theorem layOut_unreachable_branches_witness :
    expanded (Notn.Child 0) = true ∧ LayErr.childIndex = LayErr.childIndex :=
  ⟨by decide,
   (layOut_unreachable_branches layBound []).2.2.2 (Notn.Child 0) (by decide)
     LayErr.childIndex rfl⟩

/-- C2: on a live branch parent with an in-bounds index and a live
parentless new child (the replaced child having, by the arena invariant, its
parent field pointing back at the branch), `replace_child` returns the
previous i-th child, installs the new child at index i, points the new
child's parent field at the branch and clears the returned child's parent
field; all other child slots are unchanged. -/
theorem replaceChild_spec {D L : Type} (f : RawForest D L) (parent : Id) (i : Nat)
    (newChild : Id) (np : Option Id) (d : D) (children : List Id) (oldChild : Id)
    (cn on' : Node D L)
    (hp : f.get? parent = some ⟨np, .Branch d children⟩)
    (hold : children[i]? = some oldChild)
    (hnc : f.get? newChild = some cn) (hncp : cn.parent = none)
    (holdn : f.get? oldChild = some on') (holdp : on'.parent = some parent) :
    ∃ f', f.replaceChild parent i newChild = (f', some oldChild) ∧
      (∃ node', f'.get? parent = some node' ∧
        node'.contents = .Branch d (children.set i newChild)) ∧
      (children.set i newChild)[i]? = some newChild ∧
      (∃ n, f'.get? newChild = some n ∧ n.parent = some parent) ∧
      (∃ n, f'.get? oldChild = some n ∧ n.parent = none) ∧
      (∀ j : Nat, j ≠ i → (children.set i newChild)[j]? = children[j]?) := by
  have hilt : i < children.length := (List.getElem?_eq_some_iff.mp hold).1
  have hone : oldChild ≠ newChild := by
    intro h
    rw [h, hnc] at holdn
    injection holdn with h2
    rw [← h2, hncp] at holdp
    exact Option.noConfusion holdp
  have hgeti : (children.set i newChild)[i]? = some newChild :=
    List.getElem?_set_self hilt
  have hgetj : ∀ j : Nat, j ≠ i → (children.set i newChild)[j]? = children[j]? :=
    fun j hj => List.getElem?_set_ne (fun h => hj h.symm)
  have hpS : (f.get? parent).isSome = true := by rw [hp]; rfl
  by_cases hcp : newChild = parent
  · subst hcp
    have h1 : (f.setNode newChild ⟨np, .Branch d (children.set i newChild)⟩).get? newChild
        = some ⟨np, .Branch d (children.set i newChild)⟩ :=
      get?_setNode_self f _ hpS
    have h2 : ((f.setNode newChild ⟨np, .Branch d (children.set i newChild)⟩).setNode newChild
        ⟨some newChild, (⟨np, .Branch d (children.set i newChild)⟩ : Node D L).contents⟩).get?
          oldChild = some on' := by
      rw [get?_setNode_ne _ _ hone, get?_setNode_ne _ _ hone]
      exact holdn
    refine ⟨_, replaceChild_eq hp hold h1 h2, ?_, hgeti, ?_, ?_, hgetj⟩
    · exact ⟨_,
        (by
          rw [get?_setNode_ne _ _ (Ne.symm hone)]
          exact get?_setNode_self _ _ (by rw [h1]; rfl)),
        rfl⟩
    · exact ⟨_,
        (by
          rw [get?_setNode_ne _ _ (Ne.symm hone)]
          exact get?_setNode_self _ _ (by rw [h1]; rfl)),
        rfl⟩
    · exact ⟨_, get?_setNode_self _ _ (by rw [h2]; rfl), rfl⟩
  · have h1 : (f.setNode parent ⟨np, .Branch d (children.set i newChild)⟩).get? newChild
        = some cn := by
      rw [get?_setNode_ne _ _ hcp]
      exact hnc
    by_cases hop : oldChild = parent
    · subst hop
      have h2 : ((f.setNode oldChild ⟨np, .Branch d (children.set i newChild)⟩).setNode newChild
          ⟨some oldChild, cn.contents⟩).get? oldChild
          = some ⟨np, .Branch d (children.set i newChild)⟩ := by
        rw [get?_setNode_ne _ _ hone]
        exact get?_setNode_self f _ hpS
      refine ⟨_, replaceChild_eq hp hold h1 h2, ?_, hgeti, ?_, ?_, hgetj⟩
      · exact ⟨_, get?_setNode_self _ _ (by rw [h2]; rfl), rfl⟩
      · exact ⟨_,
          (by
            rw [get?_setNode_ne _ _ (Ne.symm hone)]
            exact get?_setNode_self _ _ (by rw [h1]; rfl)),
          rfl⟩
      · exact ⟨_, get?_setNode_self _ _ (by rw [h2]; rfl), rfl⟩
    · have h2 : ((f.setNode parent ⟨np, .Branch d (children.set i newChild)⟩).setNode newChild
          ⟨some parent, cn.contents⟩).get? oldChild = some on' := by
        rw [get?_setNode_ne _ _ hone, get?_setNode_ne _ _ hop]
        exact holdn
      refine ⟨_, replaceChild_eq hp hold h1 h2, ?_, hgeti, ?_, ?_, hgetj⟩
      · exact ⟨_,
          (by
            rw [get?_setNode_ne _ _ (fun h => hop h.symm),
              get?_setNode_ne _ _ (fun h => hcp h.symm)]
            exact get?_setNode_self f _ hpS),
          rfl⟩
      · exact ⟨_,
          (by
            rw [get?_setNode_ne _ _ (Ne.symm hone)]
            exact get?_setNode_self _ _ (by rw [h1]; rfl)),
          rfl⟩
      · exact ⟨_, get?_setNode_self _ _ (by rw [h2]; rfl), rfl⟩

/-- Witness for `replaceChild_spec`: replacing the only child of branch 2 in
the concrete three-node store with the parentless leaf 1. -/
theorem replaceChild_spec_witness :
    ∃ f', spliceStore.replaceChild 2 0 1 = (f', some 0) ∧
      (∃ node', f'.get? 2 = some node' ∧
        node'.contents = .Branch () (([0] : List Id).set 0 1)) ∧
      (([0] : List Id).set 0 1)[0]? = some 1 ∧
      (∃ n, f'.get? 1 = some n ∧ n.parent = some 2) ∧
      (∃ n, f'.get? 0 = some n ∧ n.parent = none) ∧
      (∀ j : Nat, j ≠ 0 → (([0] : List Id).set 0 1)[j]? = ([0] : List Id)[j]?) :=
  replaceChild_spec spliceStore 2 0 1 none () [0] 0 ⟨none, .Leaf ()⟩ ⟨some 2, .Leaf ()⟩
    rfl rfl rfl rfl rfl rfl

/-- C5: on a live branch parent with n children and a live new child,
`insert_child` succeeds exactly for indexes `i ≤ n`, leaving the child list
equal to the original with the new child inserted at position i and the new
child's parent field pointing at the branch; it aborts exactly when the
index exceeds n or the parent is a leaf. -/
theorem insertChild_spec {D L : Type} (f : RawForest D L) (parent : Id) (i : Nat)
    (newChild : Id) :
    (∀ np d children cn, f.get? parent = some ⟨np, .Branch d children⟩ →
      f.get? newChild = some cn →
      (i ≤ children.length →
        ∃ f', f.insertChild parent i newChild = (f', true) ∧
          (∃ node', f'.get? parent = some node' ∧
            node'.contents = .Branch d (children.insertIdx i newChild)) ∧
          (∃ n, f'.get? newChild = some n ∧ n.parent = some parent)) ∧
      (i > children.length → f.insertChild parent i newChild = (f, false))) ∧
    (∀ np lf, f.get? parent = some ⟨np, .Leaf lf⟩ →
      f.insertChild parent i newChild = (f, false)) := by
  constructor
  · intro np d children cn hp hnc
    have hpS : (f.get? parent).isSome = true := by rw [hp]; rfl
    constructor
    · intro hle
      by_cases hcp : newChild = parent
      · subst hcp
        have h1 : (f.setNode newChild
            ⟨np, .Branch d (children.insertIdx i newChild)⟩).get? newChild
            = some ⟨np, .Branch d (children.insertIdx i newChild)⟩ :=
          get?_setNode_self f _ hpS
        refine ⟨_, insertChild_eq hp hle h1, ?_, ?_⟩
        · exact ⟨_, get?_setNode_self _ _ (by rw [h1]; rfl), rfl⟩
        · exact ⟨_, get?_setNode_self _ _ (by rw [h1]; rfl), rfl⟩
      · have h1 : (f.setNode parent
            ⟨np, .Branch d (children.insertIdx i newChild)⟩).get? newChild = some cn := by
          rw [get?_setNode_ne _ _ hcp]
          exact hnc
        refine ⟨_, insertChild_eq hp hle h1, ?_, ?_⟩
        · exact ⟨_,
            (by
              rw [get?_setNode_ne _ _ (fun h => hcp h.symm)]
              exact get?_setNode_self f _ hpS),
            rfl⟩
        · exact ⟨_, get?_setNode_self _ _ (by rw [h1]; rfl), rfl⟩
    · intro hgt
      simp only [RawForest.insertChild, hp]
      rw [if_pos hgt]
  · intro np lf hp
    simp only [RawForest.insertChild, hp]

/-- Witness for `insertChild_spec`: inserting the parentless leaf 1 at the
end of branch 2's child list in the concrete three-node store. -/
theorem insertChild_spec_witness :
    ∃ f', spliceStore.insertChild 2 1 1 = (f', true) ∧
      (∃ node', f'.get? 2 = some node' ∧
        node'.contents = .Branch () (([0] : List Id).insertIdx 1 1)) ∧
      (∃ n, f'.get? 1 = some n ∧ n.parent = some 2) :=
  ((insertChild_spec spliceStore 2 1 1).1 none () [0] ⟨none, .Leaf ()⟩ rfl rfl).1
    (by decide)

/-- C9: when a splice aborts (dead or leaf parent, or out-of-bounds index),
the store comes back exactly as it was: every abort check precedes every
mutation.  The liveness hypotheses are the standing arena invariants (the
new child is a live handle root; listed children are live). -/
theorem splice_error_atomic {D L : Type} (f : RawForest D L) (parent : Id) (i : Nat)
    (newChild : Id)
    (hnc : (f.get? newChild).isSome = true)
    (hch : ∀ e ∈ f.map, ∀ c ∈ e.2.childIds, (f.get? c).isSome = true) :
    (∀ f', f.replaceChild parent i newChild = (f', none) → f' = f) ∧
    (∀ f', f.insertChild parent i newChild = (f', false) → f' = f) ∧
    (∀ f', f.removeChild parent i = (f', none) → f' = f) := by
  have hchild : ∀ np d children c, f.get? parent = some ⟨np, .Branch d children⟩ →
      c ∈ children → (f.get? c).isSome = true := by
    intro np d children c hp hc
    exact hch _ (lookupNode_mem hp) c hc
  refine ⟨?_, ?_, ?_⟩
  · intro f' h
    cases hp : f.get? parent with
    | none =>
      simp only [RawForest.replaceChild, hp] at h
      injection h with h1 _
      exact h1.symm
    | some node =>
      obtain ⟨np, cont⟩ := node
      cases cont with
      | Leaf lf =>
        simp only [RawForest.replaceChild, hp] at h
        injection h with h1 _
        exact h1.symm
      | Branch d children =>
        cases hold : children[i]? with
        | none =>
          simp only [RawForest.replaceChild, hp, hold] at h
          injection h with h1 _
          exact h1.symm
        | some oldChild =>
          have h1S : (((f.setNode parent
              ⟨np, .Branch d (children.set i newChild)⟩).get? newChild).isSome) = true := by
            rw [get?_setNode_isSome]
            exact hnc
          obtain ⟨n1, h1⟩ := Option.isSome_iff_exists.mp h1S
          have h2S : ((((f.setNode parent
              ⟨np, .Branch d (children.set i newChild)⟩).setNode newChild
              ⟨some parent, n1.contents⟩).get? oldChild).isSome) = true := by
            rw [get?_setNode_isSome, get?_setNode_isSome]
            exact hchild np d children oldChild hp (List.getElem?_mem hold)
          obtain ⟨n2, h2⟩ := Option.isSome_iff_exists.mp h2S
          rw [replaceChild_eq hp hold h1 h2] at h
          simp at h
  · intro f' h
    cases hp : f.get? parent with
    | none =>
      simp only [RawForest.insertChild, hp] at h
      injection h with h1 _
      exact h1.symm
    | some node =>
      obtain ⟨np, cont⟩ := node
      cases cont with
      | Leaf lf =>
        simp only [RawForest.insertChild, hp] at h
        injection h with h1 _
        exact h1.symm
      | Branch d children =>
        by_cases hgt : i > children.length
        · simp only [RawForest.insertChild, hp] at h
          rw [if_pos hgt] at h
          injection h with h1 _
          exact h1.symm
        · have h1S : (((f.setNode parent
              ⟨np, .Branch d (children.insertIdx i newChild)⟩).get? newChild).isSome) = true := by
            rw [get?_setNode_isSome]
            exact hnc
          obtain ⟨n1, h1⟩ := Option.isSome_iff_exists.mp h1S
          rw [insertChild_eq hp (by omega) h1] at h
          simp at h
  · intro f' h
    cases hp : f.get? parent with
    | none =>
      simp only [RawForest.removeChild, hp] at h
      injection h with h1 _
      exact h1.symm
    | some node =>
      obtain ⟨np, cont⟩ := node
      cases cont with
      | Leaf lf =>
        simp only [RawForest.removeChild, hp] at h
        injection h with h1 _
        exact h1.symm
      | Branch d children =>
        cases hold : children[i]? with
        | none =>
          simp only [RawForest.removeChild, hp, hold] at h
          injection h with h1 _
          exact h1.symm
        | some removed =>
          have h1S : (((f.setNode parent
              ⟨np, .Branch d (children.eraseIdx i)⟩).get? removed).isSome) = true := by
            rw [get?_setNode_isSome]
            exact hchild np d children removed hp (List.getElem?_mem hold)
          obtain ⟨n1, h1⟩ := Option.isSome_iff_exists.mp h1S
          rw [removeChild_eq hp hold h1] at h
          simp at h

/-- Witness for `splice_error_atomic`: the out-of-bounds replace at index 5
on the concrete three-node store returns the store unchanged. -/
theorem splice_error_atomic_witness : spliceStore = spliceStore :=
  (splice_error_atomic spliceStore 2 5 1 (by decide) (by decide)).1 spliceStore
    (by decide)

/-- C4: `goto_bookmark` moves the focus to the bookmarked id and returns
true exactly when the id is still live and its parent walk reaches the
handle's `root`; otherwise it returns false and leaves the handle
unchanged.  The hypotheses are the standing handle invariants: the handle's
root is live and parentless, and parent walks terminate (the store is
acyclic). -/
theorem gotoBookmark_spec {D L : Type} (f : RawForest D L) (t : Tree) (mark : Bookmark)
    (rn : Node D L) (hroot : f.get? t.root = some rn) (hrootp : rn.parent = none)
    (hterm : ∀ e ∈ f.map, (f.rootOf e.1).isSome = true) :
    (((f.get? mark.id).isSome = true ∧ PReaches f mark.id t.root) →
       Tree.gotoBookmark f t mark = (true, { t with focus := mark.id })) ∧
    (¬ ((f.get? mark.id).isSome = true ∧ PReaches f mark.id t.root) →
       Tree.gotoBookmark f t mark = (false, t)) := by
  constructor
  · rintro ⟨hlive, hre⟩
    obtain ⟨n, hn⟩ := Option.isSome_iff_exists.mp hlive
    have hmem : (mark.id, n) ∈ f.map := lookupNode_mem hn
    obtain ⟨r', hr'⟩ := Option.isSome_iff_exists.mp (hterm _ hmem)
    have heq : r' = t.root :=
      rootUpTo_unique (show f.rootUpTo (f.map.length + 1) mark.id = some r' from hr')
        hre ⟨rn, hroot, hrootp⟩
    subst heq
    have hcond : (f.isValid mark.id && (f.rootOf mark.id == some t.root)) = true := by
      have h1 : f.isValid mark.id = true := hlive
      rw [h1, hr']
      simp
    simp only [Tree.gotoBookmark]
    rw [if_pos hcond]
  · intro hnot
    have hcond' : ¬ ((f.isValid mark.id && (f.rootOf mark.id == some t.root)) = true) := by
      intro hcond
      rw [Bool.and_eq_true] at hcond
      exact hnot ⟨hcond.1,
        (rootUpTo_sound (show f.rootUpTo (f.map.length + 1) mark.id = some t.root from
          eq_of_beq hcond.2)).1⟩
    simp only [Tree.gotoBookmark]
    rw [if_neg hcond']

/-- Witness for `gotoBookmark_spec`: on the one-leaf store, jumping to a
bookmark of the root itself succeeds and moves the focus there. -/
theorem gotoBookmark_spec_witness :
    Tree.gotoBookmark leafStore (Tree.new 0) ⟨0⟩ = (true, Tree.mk 0 0) :=
  (gotoBookmark_spec leafStore (Tree.new 0) ⟨0⟩ ⟨none, .Leaf ()⟩ rfl rfl
    (by decide)).1 ⟨by decide, PReaches.refl 0⟩

/-- C1 (code bug): the `Drop` impl calls `delete_tree(self.id)` — the focus
— not `delete_tree(self.root)` (tree.rs line 264).  On the concrete
two-node tree (branch root 1 over leaf 0) with the focus moved to the
child, dropping removes one node instead of the two reachable from `root`,
and the root node is left behind in the arena (with a dangling child id). -/
theorem drop_deletes_at_focus_not_root :
    dropExample.1.map.length = 2 ∧
    (RawForest.descendants 3 dropExample.1 dropExample.2.root).length = 2 ∧
    Tree.gotoChild dropExample.1 dropExample.2 0 = some (Tree.mk 1 0) ∧
    (Tree.drop dropExample.1 (Tree.mk 1 0)).map
      (fun f' => (f'.map.length, (f'.get? dropExample.2.root).isSome)) =
      some (1, true) := by
  decide

/-- C10: every freshly constructed handle has its focus equal to its root:
`Tree::new` sets both fields to the same id, and `new_leaf`, `new_branch`,
`remove_child` and `replace_child` all return handles built by
`Tree::new`. -/
theorem fresh_handle_focus_eq_root {D L : Type} (f : RawForest D L) (leaf : L) (d : D)
    (ts : List Tree) (id : Id) (t : Tree) (i : Nat) :
    (Tree.new id).focus = (Tree.new id).root ∧
    (newLeaf f leaf).2.focus = (newLeaf f leaf).2.root ∧
    (newBranch f d ts).2.focus = (newBranch f d ts).2.root ∧
    (∀ f' t', Tree.removeChild f t i = (f', some t') → t'.focus = t'.root) ∧
    (∀ f' t' other, Tree.replaceChild f t i other = (f', some t') → t'.focus = t'.root) := by
  refine ⟨rfl, rfl, rfl, ?_, ?_⟩
  · intro f' t' h
    rw [Tree.removeChild] at h
    cases hr : f.removeChild t.focus i with
    | mk f2 o =>
      rw [hr] at h
      cases o with
      | none => simp at h
      | some removed =>
        simp only [Prod.mk.injEq, Option.some.injEq] at h
        rw [← h.2]
        rfl
  · intro f' t' other h
    rw [Tree.replaceChild] at h
    cases hr : f.replaceChild t.focus i other.focus with
    | mk f2 o =>
      rw [hr] at h
      cases o with
      | none => simp at h
      | some oldId =>
        simp only [Prod.mk.injEq, Option.some.injEq] at h
        rw [← h.2]
        rfl

/-- Witness for `fresh_handle_focus_eq_root`: the handle returned by
removing the only child of branch 2 in the concrete three-node store. -/
theorem fresh_handle_focus_eq_root_witness :
    (Tree.new 0).focus = (Tree.new 0).root :=
  (fresh_handle_focus_eq_root spliceStore () () [] 0 (Tree.new 2) 0).2.2.2.1
    (RawForest.mk [(2, ⟨none, .Branch () []⟩), (1, ⟨none, .Leaf ()⟩), (0, ⟨none, .Leaf ()⟩)] 3)
    (Tree.new 0) (by decide)

end Synless
